import Mathlib

/-!
Shallow embedding of the Isolation-Forest HIDS core
(`src/unnamed/part_000`, with the compact variant in `src/new.c`).

Modelling conventions:
* C `double` arithmetic is modelled over `ℝ` (`log` is `Real.log`,
  `pow(2.0, x)` is real `rpow`).
* C `int` values (syscall frequencies, split thresholds, node indices)
  are modelled as `ℤ`; counts, depths and sizes as `ℕ`.
* The global C PRNG `rand()` is modelled by an explicit infinite stream
  `rng : ℕ → ℕ` of its successive outputs together with a cursor `k`
  that every rand-consuming function advances and returns; `rand() % m`
  becomes `rng k % m`.  Quantifying over all `rng` covers every possible
  behaviour of the C generator.
* `NULL` child pointers are modelled by `Option`.
* `build_isolation_tree` recurses on `current_depth` bounded by
  `max_depth`; it is defined through the structurally recursive
  `build_isolation_tree_fuel` with fuel `max_depth - current_depth + 1`,
  which is shown (see the fuel-irrelevance theorems) to be exactly the
  recursion depth needed.
-/

def MAX_SYSCALLS : ℕ := 20

def NUM_TREES : ℕ := 10

def SUBSAMPLE_SIZE : ℕ := 8

def MAX_TREE_DEPTH : ℕ := 10

/-- part_000 `ProcessBehavior`: a syscall-frequency profile.
`syscall_freq` is total on `ℤ`; the program only reads attributes in
`[0, MAX_SYSCALLS)`. -/
structure ProcessBehavior where
  syscall_freq : ℤ → ℤ
  total_calls : ℤ
  process_name : String
  is_anomaly : ℤ

/-- part_000 `IsolationNode` (field for field; `left`/`right` are
nullable pointers, hence `Option`). -/
inductive IsolationNode : Type where
  | node (is_leaf : Bool) (split_attribute split_value : ℤ)
      (left right : Option IsolationNode) (size : ℕ)

def IsolationNode.is_leaf : IsolationNode → Bool
  | .node b _ _ _ _ _ => b

def IsolationNode.split_attribute : IsolationNode → ℤ
  | .node _ a _ _ _ _ => a

def IsolationNode.split_value : IsolationNode → ℤ
  | .node _ _ v _ _ _ => v

def IsolationNode.left : IsolationNode → Option IsolationNode
  | .node _ _ _ l _ _ => l

def IsolationNode.right : IsolationNode → Option IsolationNode
  | .node _ _ _ _ r _ => r

def IsolationNode.size : IsolationNode → ℕ
  | .node _ _ _ _ _ s => s

/-- The literal `0.5772156649` used by both sources as the
Euler-Mascheroni approximation. -/
noncomputable def euler_gamma_approx : ℝ := 0.5772156649

/-- part_000 `harmonic_number`: `0` for `n <= 1`, else `log n + 0.5772156649`. -/
noncomputable def harmonic_number (n : ℤ) : ℝ :=
  if n ≤ 1 then 0 else Real.log n + euler_gamma_approx

/-- part_000 `c_factor`: `0` for `n <= 1`, else
`2 * harmonic_number (n-1) - 2*(n-1)/n`. -/
noncomputable def c_factor (n : ℤ) : ℝ :=
  if n ≤ 1 then 0
  else 2 * harmonic_number (n - 1) - 2 * ((n : ℝ) - 1) / (n : ℝ)

namespace NewC

/-- new.c `c_factor`: `0` for `n <= 1`, else
`2 * (log (n-1) + 0.5772156649) - 2*(n-1)/n` (no `harmonic_number`
indirection, so the `log` is applied directly to `n - 1`). -/
noncomputable def c_factor (n : ℤ) : ℝ :=
  if n ≤ 1 then 0
  else 2 * (Real.log ((n - 1 : ℤ) : ℝ) + euler_gamma_approx)
    - 2 * ((n : ℝ) - 1) / (n : ℝ)

end NewC

/-- Seeded running minimum: C initialises `min_val` with the first
element and folds `min` over the rest. -/
def list_min : List ℤ → ℤ
  | [] => 0
  | v :: vs => vs.foldl min v

/-- Seeded running maximum, mirroring the C loop. -/
def list_max : List ℤ → ℤ
  | [] => 0
  | v :: vs => vs.foldl max v

/-- The attribute draw `rand() % MAX_SYSCALLS` (the same value as
part_000's `random_int(0, MAX_SYSCALLS - 1)`). -/
def chosen_attr (rng : ℕ → ℕ) (k : ℕ) : ℤ :=
  (rng k : ℤ) % (MAX_SYSCALLS : ℤ)

/-- The values of attribute `attr` over the current sample subset. -/
def attr_vals (data : ℤ → ProcessBehavior) (attr : ℤ) (indices : List ℤ) :
    List ℤ :=
  indices.map fun i => (data i).syscall_freq attr

/-- The split draw `random_int(min_val, max_val)
= min_val + rand() % (max_val - min_val + 1)`. -/
def chosen_split (data : ℤ → ProcessBehavior) (rng : ℕ → ℕ) (attr : ℤ)
    (indices : List ℤ) (k : ℕ) : ℤ :=
  list_min (attr_vals data attr indices) +
    (rng k : ℤ) %
      (list_max (attr_vals data attr indices) -
        list_min (attr_vals data attr indices) + 1)

/-- The left partition: samples with `value < split_value`. -/
def left_of (data : ℤ → ProcessBehavior) (attr split_value : ℤ)
    (indices : List ℤ) : List ℤ :=
  indices.filter fun i => (data i).syscall_freq attr < split_value

/-- The right partition: samples with `value >= split_value`. -/
def right_of (data : ℤ → ProcessBehavior) (attr split_value : ℤ)
    (indices : List ℤ) : List ℤ :=
  indices.filter fun i => ¬ (data i).syscall_freq attr < split_value

/-- Structurally recursive core of part_000 `build_isolation_tree`
(and of the identical recursion `build_tree` in new.c, which fixes
`max_depth = 10`).  The extra `fuel` argument only bounds the recursion
depth; whenever `max_depth ≤ current_depth + fuel` the fuel is never
exhausted (the fuel-0 branch then coincides with the max-depth leaf
branch), as proved below.  Per C call the RNG is consumed as: one draw
for the split attribute, one for the split value; a node is created
with `size = n` before any termination test. -/
def build_isolation_tree_fuel (data : ℤ → ProcessBehavior) (rng : ℕ → ℕ)
    (max_depth : ℕ) :
    ℕ → List ℤ → ℕ → ℕ → IsolationNode × ℕ
  | 0, indices, _, k => (.node true (-1) 0 none none indices.length, k)
  | fuel + 1, indices, current_depth, k =>
    if max_depth ≤ current_depth ∨ indices.length ≤ 1 then
      (.node true (-1) 0 none none indices.length, k)
    else
      let attr := chosen_attr rng k
      if list_min (attr_vals data attr indices) =
          list_max (attr_vals data attr indices) then
        (.node true attr 0 none none indices.length, k + 1)
      else
        let split_value := chosen_split data rng attr indices (k + 1)
        let lres : Option IsolationNode × ℕ :=
          if 0 < (left_of data attr split_value indices).length then
            let r := build_isolation_tree_fuel data rng max_depth fuel
              (left_of data attr split_value indices) (current_depth + 1) (k + 2)
            (some r.1, r.2)
          else (none, k + 2)
        let rres : Option IsolationNode × ℕ :=
          if 0 < (right_of data attr split_value indices).length then
            let r := build_isolation_tree_fuel data rng max_depth fuel
              (right_of data attr split_value indices) (current_depth + 1) lres.2
            (some r.1, r.2)
          else (none, lres.2)
        (.node false attr split_value lres.1 rres.1 indices.length, rres.2)

/-- part_000 `build_isolation_tree data indices current_depth max_depth`
(the sample count `n` is `indices.length`); returns the node together
with the advanced RNG cursor. -/
def build_isolation_tree (data : ℤ → ProcessBehavior) (rng : ℕ → ℕ)
    (indices : List ℤ) (current_depth max_depth k : ℕ) : IsolationNode × ℕ :=
  build_isolation_tree_fuel data rng max_depth (max_depth - current_depth + 1)
    indices current_depth k

/-- part_000 `path_length`: `NULL` yields `current_depth`; a leaf yields
`current_depth + c_factor size`; an internal node recurses left when
`val < split_value` and the left child exists, otherwise recurses right
when the right child exists, otherwise returns `current_depth`. -/
noncomputable def path_length :
    Option IsolationNode → ProcessBehavior → ℕ → ℝ
  | none, _, current_depth => current_depth
  | some (.node lf attr v l r s), sample, current_depth =>
    if lf then (current_depth : ℝ) + c_factor s
    else if sample.syscall_freq attr < v ∧ l.isSome then
      path_length l sample (current_depth + 1)
    else if r.isSome then path_length r sample (current_depth + 1)
    else current_depth

namespace NewC

/-- new.c `get_path`: a `NULL` node or a leaf yields
`depth + c_factor (size, or 0 when NULL)`; an internal node recurses
into the child selected by the comparison even when that child is
`NULL`. -/
noncomputable def get_path : Option IsolationNode → ProcessBehavior → ℕ → ℝ
  | none, _, depth => (depth : ℝ) + NewC.c_factor 0
  | some (.node lf attr v l r s), p, depth =>
    if lf then (depth : ℝ) + NewC.c_factor s
    else if p.syscall_freq attr < v then get_path l p (depth + 1)
    else get_path r p (depth + 1)

end NewC

/-- part_000 `IsolationForest` (tree roots, tree count, and the
clamped subsample size kept for normalisation). -/
structure IsolationForest where
  trees : List IsolationNode
  num_trees : ℕ
  subsample_size : ℕ

/-- The tree-building loop of part_000 `train_isolation_forest`: for
each tree draw `m` indices `random_int(0, n-1) = rand() % n` (with
replacement), then build one tree at depth 0 with `MAX_TREE_DEPTH`. -/
def train_trees (data : ℤ → ProcessBehavior) (rng : ℕ → ℕ) (n m : ℕ) :
    ℕ → ℕ → List IsolationNode × ℕ
  | 0, k => ([], k)
  | t + 1, k =>
    let subsample_indices : List ℤ :=
      (List.range m).map fun i => ((rng (k + i) % n : ℕ) : ℤ)
    let r := build_isolation_tree data rng subsample_indices 0 MAX_TREE_DEPTH
      (k + m)
    let rest := train_trees data rng n m t r.2
    (r.1 :: rest.1, rest.2)

/-- part_000 `train_isolation_forest`: clamps the subsample size to
`SUBSAMPLE_SIZE < n ? SUBSAMPLE_SIZE : n` and builds `NUM_TREES` trees.
There is no input validation of any kind in the source. -/
def train_isolation_forest (data : ℤ → ProcessBehavior) (n : ℕ)
    (rng : ℕ → ℕ) (k : ℕ) : IsolationForest :=
  let m := if SUBSAMPLE_SIZE < n then SUBSAMPLE_SIZE else n
  { trees := (train_trees data rng n m NUM_TREES k).1
    num_trees := NUM_TREES
    subsample_size := m }

/-- part_000 `anomaly_score`: average `path_length` over the trees,
normalise by `c = c_factor subsample_size`; if `c == 0` return `0.5`,
else `2^(-avg/c)`. -/
noncomputable def anomaly_score (forest : IsolationForest)
    (sample : ProcessBehavior) : ℝ :=
  let avg_path_length :=
    (forest.trees.map fun t => path_length (some t) sample 0).sum
      / (forest.num_trees : ℝ)
  let c := c_factor (forest.subsample_size : ℤ)
  if c = 0 then 0.5 else (2 : ℝ) ^ (-avg_path_length / c)

/-- One scoring call: it returns the score together with the forest it
leaves behind, which is the forest it was given (the C function only
reads the forest). -/
noncomputable def score_call (forest : IsolationForest)
    (sample : ProcessBehavior) : ℝ × IsolationForest :=
  (anomaly_score forest sample, forest)

/-! ### Concrete instances used by witnesses and counterexamples -/

/-- A process whose every syscall frequency is 0. -/
def proc_zero : ProcessBehavior := ⟨fun _ => 0, 0, "p0", 0⟩

/-- A process whose every syscall frequency is -1. -/
def proc_neg : ProcessBehavior := ⟨fun _ => -1, 0, "pn", 0⟩

/-- A two-point training set: sample 0 is constantly 0, every other
sample constantly 1. -/
def data01 : ℤ → ProcessBehavior :=
  fun i => ⟨fun _ => if i = 0 then 0 else 1, 0, "t", 0⟩

/-- A RNG stream that always returns 0. -/
def rngZ : ℕ → ℕ := fun _ => 0

/-- A RNG stream with period 4, chosen so that training on two samples
draws indices 0 and 1 and then splits at threshold 1. -/
def rng4 : ℕ → ℕ := fun j => j % 4

/-- Boolean tree predicate: every internal node of the tree has a
present right child. -/
def allRightB : IsolationNode → Bool
  | .node lf _ _ l r _ =>
    (lf || r.isSome) &&
    (match l with | none => true | some x => allRightB x) &&
    (match r with | none => true | some y => allRightB y)

/-! ### Seeded fold lemmas for the min/max loops -/

lemma foldl_min_le_seed : ∀ (vs : List ℤ) (v : ℤ), vs.foldl min v ≤ v := by
  intro vs
  induction vs with
  | nil => intro v; exact le_refl v
  | cons w ws ih =>
    intro v
    exact le_trans (ih (min v w)) (min_le_left v w)

lemma foldl_min_le_mem : ∀ (vs : List ℤ) (v x : ℤ), x ∈ vs → vs.foldl min v ≤ x := by
  intro vs
  induction vs with
  | nil => intro v x hx; cases hx
  | cons w ws ih =>
    intro v x hx
    rcases List.mem_cons.1 hx with h | h
    · subst h
      exact le_trans (foldl_min_le_seed ws (min v x)) (min_le_right v x)
    · exact ih (min v w) x h

lemma seed_le_foldl_max : ∀ (vs : List ℤ) (v : ℤ), v ≤ vs.foldl max v := by
  intro vs
  induction vs with
  | nil => intro v; exact le_refl v
  | cons w ws ih =>
    intro v
    exact le_trans (le_max_left v w) (ih (max v w))

lemma mem_le_foldl_max : ∀ (vs : List ℤ) (v x : ℤ), x ∈ vs → x ≤ vs.foldl max v := by
  intro vs
  induction vs with
  | nil => intro v x hx; cases hx
  | cons w ws ih =>
    intro v x hx
    rcases List.mem_cons.1 hx with h | h
    · subst h
      exact le_trans (le_max_right v x) (seed_le_foldl_max ws (max v x))
    · exact ih (max v w) x h

lemma foldl_max_attained : ∀ (vs : List ℤ) (v : ℤ),
    vs.foldl max v = v ∨ vs.foldl max v ∈ vs := by
  intro vs
  induction vs with
  | nil => intro v; exact Or.inl rfl
  | cons w ws ih =>
    intro v
    rcases ih (max v w) with h | h
    · rcases max_choice v w with hc | hc
      · exact Or.inl (h.trans hc)
      · exact Or.inr (List.mem_cons.2 (Or.inl (h.trans hc)))
    · exact Or.inr (List.mem_cons.2 (Or.inr h))

lemma foldl_max_const : ∀ (vs : List ℤ) (v : ℤ), (∀ x ∈ vs, x = v) →
    vs.foldl max v = v := by
  intro vs
  induction vs with
  | nil => intro v _; rfl
  | cons w ws ih =>
    intro v h
    have hw : w = v := h w (List.mem_cons_self w ws)
    subst hw
    simp only [List.foldl_cons, max_self]
    exact ih w fun x hx => h x (List.mem_cons.2 (Or.inr hx))

lemma foldl_min_const : ∀ (vs : List ℤ) (v : ℤ), (∀ x ∈ vs, x = v) →
    vs.foldl min v = v := by
  intro vs
  induction vs with
  | nil => intro v _; rfl
  | cons w ws ih =>
    intro v h
    have hw : w = v := h w (List.mem_cons_self w ws)
    subst hw
    simp only [List.foldl_cons, min_self]
    exact ih w fun x hx => h x (List.mem_cons.2 (Or.inr hx))

/-- On a nonempty list, the seeded min equals the seeded max exactly
when every element equals the head. -/
lemma list_min_eq_list_max_iff (v : ℤ) (vs : List ℤ) :
    list_min (v :: vs) = list_max (v :: vs) ↔ ∀ x ∈ v :: vs, x = v := by
  constructor
  · intro h x hx
    have h1 : list_min (v :: vs) ≤ x := by
      rcases List.mem_cons.1 hx with hh | hh
      · subst hh; exact foldl_min_le_seed vs x
      · exact foldl_min_le_mem vs v x hh
    have h2 : x ≤ list_max (v :: vs) := by
      rcases List.mem_cons.1 hx with hh | hh
      · subst hh; exact seed_le_foldl_max vs x
      · exact mem_le_foldl_max vs v x hh
    have h3 : list_min (v :: vs) ≤ v := foldl_min_le_seed vs v
    have h4 : v ≤ list_max (v :: vs) := seed_le_foldl_max vs v
    omega
  · intro h
    have h1 : list_min (v :: vs) = v :=
      foldl_min_const vs v fun x hx => h x (List.mem_cons.2 (Or.inr hx))
    have h2 : list_max (v :: vs) = v :=
      foldl_max_const vs v fun x hx => h x (List.mem_cons.2 (Or.inr hx))
    rw [h1, h2]

/-- The seeded max of a nonempty list is one of its elements. -/
lemma list_max_mem (v : ℤ) (vs : List ℤ) : list_max (v :: vs) ∈ v :: vs := by
  rcases foldl_max_attained vs v with h | h
  · rw [list_max, h]; exact List.mem_cons_self v vs
  · exact List.mem_cons.2 (Or.inr h)

/-! ### Bounds on the normalisation constant -/

/-- For `3 ≤ s`, part_000's `c_factor s` is strictly positive
(indeed more than `0.54`). -/
lemma c_factor_pos_of_three_le (s : ℕ) (hs : 3 ≤ s) : 0 < c_factor (s : ℤ) := by
  have h1 : ¬ ((s : ℤ) ≤ 1) := by omega
  have h2 : ¬ ((s : ℤ) - 1 ≤ 1) := by omega
  rw [c_factor, if_neg h1, harmonic_number, if_neg h2]
  have hlog : Real.log 2 ≤ Real.log (((s : ℤ) - 1 : ℤ) : ℝ) := by
    apply Real.log_le_log (by norm_num)
    push_cast
    have : (3 : ℝ) ≤ (s : ℝ) := by exact_mod_cast hs
    linarith
  have hlog2 : (0.6931471803 : ℝ) < Real.log 2 := Real.log_two_gt_d9
  have hspos : (0 : ℝ) < (s : ℝ) := by positivity
  have hfrac : 2 * ((s : ℝ) - 1) / (s : ℝ) ≤ 2 := by
    rw [div_le_iff₀ hspos]
    linarith
  push_cast at hlog
  rw [euler_gamma_approx]
  norm_num
  linarith

/-! ### Lower bounds on path lengths -/

lemma c_factor_neg_one_le (s : ℕ) : (-1 : ℝ) ≤ c_factor (s : ℤ) := by
  rcases Nat.lt_or_ge s 2 with h | h
  · have h1 : (s : ℤ) ≤ 1 := by omega
    rw [c_factor, if_pos h1]; norm_num
  · rcases Nat.eq_or_lt_of_le h with h2 | h3
    · have hs : s = 2 := h2.symm
      subst hs
      norm_num [c_factor, harmonic_number]
    · have := c_factor_pos_of_three_le s (by omega)
      linarith

lemma path_length_ge_aux : ∀ (fuel : ℕ) (o : Option IsolationNode),
    sizeOf o ≤ fuel → ∀ (p : ProcessBehavior) (d : ℕ),
    (d : ℝ) - 1 ≤ path_length o p d := by
  intro fuel
  induction fuel with
  | zero =>
    intro o h
    exfalso
    cases o with
    | none => simp at h
    | some nd => simp at h
  | succ f ih =>
    intro o h p d
    cases o with
    | none =>
      simp only [path_length]
      linarith
    | some nd =>
      cases nd with
      | node lf attr v l r s =>
        have hsl : sizeOf l ≤ f := by
          have := IsolationNode.node.sizeOf_spec lf attr v l r s
          simp at h
          omega
        have hsr : sizeOf r ≤ f := by
          have := IsolationNode.node.sizeOf_spec lf attr v l r s
          simp at h
          omega
        simp only [path_length]
        split_ifs with h1 h2 h3
        · have := c_factor_neg_one_le s
          linarith
        · have := ih l hsl p (d + 1)
          push_cast at this
          linarith
        · have := ih r hsr p (d + 1)
          push_cast at this
          linarith
        · linarith

/-- Every path-length evaluation started at depth `d` returns at least
`d - 1` (the only negative leaf adjustment is `c_factor 2 = -1`). -/
lemma path_length_ge (o : Option IsolationNode) (p : ProcessBehavior)
    (d : ℕ) : (d : ℝ) - 1 ≤ path_length o p d :=
  path_length_ge_aux (sizeOf o) o (le_refl _) p d

/-- Evaluation from the root of a tree whose root size is at least 3 is
nonnegative. -/
lemma path_length_root_nonneg (nd : IsolationNode) (p : ProcessBehavior)
    (hs : 3 ≤ nd.size) : 0 ≤ path_length (some nd) p 0 := by
  cases nd with
  | node lf attr v l r s =>
    simp only [IsolationNode.size] at hs
    simp only [path_length]
    split_ifs with h1 h2 h3
    · have := c_factor_pos_of_three_le s hs
      push_cast
      linarith
    · have := path_length_ge l p 1
      have he : path_length l p (0 + 1) = path_length l p 1 := by norm_num
      rw [he]
      push_cast at this
      linarith
    · have := path_length_ge r p 1
      have he : path_length r p (0 + 1) = path_length r p 1 := by norm_num
      rw [he]
      push_cast at this
      linarith
    · norm_num

/-! ### Structural invariants of built trees -/

lemma list_min_le_list_max (v : ℤ) (vs : List ℤ) :
    list_min (v :: vs) ≤ list_max (v :: vs) :=
  le_trans (foldl_min_le_seed vs v) (seed_le_foldl_max vs v)

/-- The randomly drawn split value lies in `[min_val, max_val]` of the
chosen attribute over a nonempty sample set with distinct extremes. -/
lemma chosen_split_bounds (data : ℤ → ProcessBehavior) (rng : ℕ → ℕ)
    (attr : ℤ) (a : ℤ) (t : List ℤ) (k : ℕ)
    (hne : list_min (attr_vals data attr (a :: t)) ≠
      list_max (attr_vals data attr (a :: t))) :
    list_min (attr_vals data attr (a :: t)) ≤
        chosen_split data rng attr (a :: t) k ∧
      chosen_split data rng attr (a :: t) k ≤
        list_max (attr_vals data attr (a :: t)) := by
  have hle : list_min (attr_vals data attr (a :: t)) ≤
      list_max (attr_vals data attr (a :: t)) := by
    have h0 : attr_vals data attr (a :: t) =
        (data a).syscall_freq attr ::
          t.map fun i => (data i).syscall_freq attr := rfl
    rw [h0]
    exact list_min_le_list_max _ _
  have hlt : list_min (attr_vals data attr (a :: t)) <
      list_max (attr_vals data attr (a :: t)) := lt_of_le_of_ne hle hne
  have hpos : (0 : ℤ) < list_max (attr_vals data attr (a :: t)) -
      list_min (attr_vals data attr (a :: t)) + 1 := by omega
  have h1 : 0 ≤ (rng k : ℤ) % (list_max (attr_vals data attr (a :: t)) -
      list_min (attr_vals data attr (a :: t)) + 1) :=
    Int.emod_nonneg _ (by omega)
  have h2 : (rng k : ℤ) % (list_max (attr_vals data attr (a :: t)) -
      list_min (attr_vals data attr (a :: t)) + 1) <
      list_max (attr_vals data attr (a :: t)) -
        list_min (attr_vals data attr (a :: t)) + 1 :=
    Int.emod_lt_of_pos _ hpos
  unfold chosen_split
  omega

/-- The sample attaining the maximum of the chosen attribute always
falls into the right partition, so the right partition of a nonempty
sample set is nonempty whenever the split value is at most the maximum. -/
lemma right_of_pos (data : ℤ → ProcessBehavior) (attr : ℤ) (a : ℤ)
    (t : List ℤ) (sv : ℤ)
    (hsv : sv ≤ list_max (attr_vals data attr (a :: t))) :
    0 < (right_of data attr sv (a :: t)).length := by
  have hmem : list_max (attr_vals data attr (a :: t)) ∈
      attr_vals data attr (a :: t) := by
    have h0 : attr_vals data attr (a :: t) =
        (data a).syscall_freq attr ::
          t.map fun i => (data i).syscall_freq attr := rfl
    rw [h0]
    exact list_max_mem _ _
  rcases List.mem_map.1 hmem with ⟨i, hi, hfi⟩
  apply List.length_pos_of_mem (a := i)
  apply List.mem_filter.2
  refine ⟨hi, ?_⟩
  simp only [decide_eq_true_eq]
  omega

/-- Every tree returned by the (fuel-indexed) builder satisfies
`allRightB`: internal nodes always get a right child. -/
lemma allRightB_build_fuel (data : ℤ → ProcessBehavior) (rng : ℕ → ℕ)
    (maxD : ℕ) : ∀ fuel idx depth k,
    allRightB (build_isolation_tree_fuel data rng maxD fuel idx depth k).1 = true := by
  intro fuel
  induction fuel with
  | zero => intro idx depth k; rfl
  | succ f ih =>
    intro idx depth k
    by_cases hg : maxD ≤ depth ∨ idx.length ≤ 1
    · simp only [build_isolation_tree_fuel, if_pos hg]
      rfl
    · cases idx with
      | nil => exact absurd (Or.inr (by simp)) hg
      | cons a t =>
        simp only [build_isolation_tree_fuel, if_neg hg]
        by_cases hm : list_min (attr_vals data (chosen_attr rng k) (a :: t)) =
            list_max (attr_vals data (chosen_attr rng k) (a :: t))
        · rw [if_pos hm]
          rfl
        · rw [if_neg hm]
          have hsv := chosen_split_bounds data rng (chosen_attr rng k) a t (k + 1) hm
          have hr := right_of_pos data (chosen_attr rng k) a t
            (chosen_split data rng (chosen_attr rng k) (a :: t) (k + 1)) hsv.2
          rw [if_pos hr]
          by_cases hl : 0 < (left_of data (chosen_attr rng k)
              (chosen_split data rng (chosen_attr rng k) (a :: t) (k + 1)) (a :: t)).length
          · rw [if_pos hl]
            simp [allRightB, ih]
          · rw [if_neg hl]
            simp [allRightB, ih]

/-- Every node returned by the builder records `size = n`, the number
of samples handed to the call that created it. -/
lemma build_fuel_size (data : ℤ → ProcessBehavior) (rng : ℕ → ℕ)
    (maxD : ℕ) : ∀ fuel idx depth k,
    ((build_isolation_tree_fuel data rng maxD fuel idx depth k).1).size =
      idx.length := by
  intro fuel idx depth k
  cases fuel with
  | zero => rfl
  | succ f =>
    simp only [build_isolation_tree_fuel]
    split_ifs with h1 h2 <;> simp [IsolationNode.size]

/-! ### Fuel irrelevance: the builder terminates within the measure
`max_depth - current_depth` -/

lemma build_fuel_irrel (data : ℤ → ProcessBehavior) (rng : ℕ → ℕ)
    (maxD : ℕ) : ∀ f1 f2 idx depth k, maxD ≤ depth + f1 → maxD ≤ depth + f2 →
    build_isolation_tree_fuel data rng maxD f1 idx depth k =
      build_isolation_tree_fuel data rng maxD f2 idx depth k := by
  intro f1
  induction f1 with
  | zero =>
    intro f2 idx depth k h1 h2
    have hd : maxD ≤ depth := by omega
    cases f2 with
    | zero => rfl
    | succ g =>
      simp only [build_isolation_tree_fuel, if_pos (Or.inl hd)]
  | succ f ihf =>
    intro f2 idx depth k h1 h2
    cases f2 with
    | zero =>
      have hd : maxD ≤ depth := by omega
      simp only [build_isolation_tree_fuel, if_pos (Or.inl hd)]
    | succ g =>
      by_cases hg : maxD ≤ depth ∨ idx.length ≤ 1
      · simp only [build_isolation_tree_fuel, if_pos hg]
      · simp only [build_isolation_tree_fuel, if_neg hg]
        by_cases hm : list_min (attr_vals data (chosen_attr rng k) idx) =
            list_max (attr_vals data (chosen_attr rng k) idx)
        · simp only [if_pos hm]
        · simp only [if_neg hm]
          have el : build_isolation_tree_fuel data rng maxD f
              (left_of data (chosen_attr rng k)
                (chosen_split data rng (chosen_attr rng k) idx (k + 1)) idx)
              (depth + 1) (k + 2) =
            build_isolation_tree_fuel data rng maxD g
              (left_of data (chosen_attr rng k)
                (chosen_split data rng (chosen_attr rng k) idx (k + 1)) idx)
              (depth + 1) (k + 2) := ihf g _ (depth + 1) (k + 2) (by omega) (by omega)
          rw [el]
          have er : ∀ kk, build_isolation_tree_fuel data rng maxD f
              (right_of data (chosen_attr rng k)
                (chosen_split data rng (chosen_attr rng k) idx (k + 1)) idx)
              (depth + 1) kk =
            build_isolation_tree_fuel data rng maxD g
              (right_of data (chosen_attr rng k)
                (chosen_split data rng (chosen_attr rng k) idx (k + 1)) idx)
              (depth + 1) kk := fun kk => ihf g _ (depth + 1) kk (by omega) (by omega)
          rw [er]

/-! ### Facts about training -/

/-- Every tree root produced by the training loop records
`size = m`, the (clamped) subsample size. -/
lemma train_trees_sizes (data : ℤ → ProcessBehavior) (rng : ℕ → ℕ)
    (n m : ℕ) : ∀ count k, ∀ nd ∈ (train_trees data rng n m count k).1,
    nd.size = m := by
  intro count
  induction count with
  | zero =>
    intro k nd h
    cases h
  | succ t ih =>
    intro k nd h
    simp only [train_trees] at h
    rcases List.mem_cons.1 h with h1 | h1
    · subst h1
      have := build_fuel_size data rng MAX_TREE_DEPTH (MAX_TREE_DEPTH - 0 + 1)
        ((List.range m).map fun i => ((rng (k + i) % n : ℕ) : ℤ)) 0 (k + m)
      simpa using this
    · exact ih _ nd h1

/-- Training on an empty data set builds `count` single-leaf trees of
size 0 without consuming the RNG (the index-drawing loop runs zero
times because the clamped subsample size is 0). -/
lemma train_trees_zero (data : ℤ → ProcessBehavior) (rng : ℕ → ℕ) :
    ∀ count k, train_trees data rng 0 0 count k =
      (List.replicate count (.node true (-1) 0 none none 0), k) := by
  intro count
  induction count with
  | zero => intro k; rfl
  | succ t ih =>
    intro k
    simp only [train_trees]
    rw [ih]
    rfl

/-! ### Claim theorems -/

/-- C1, counterexample: part_000's `c_factor` does not equal
`2 * (ln(n-1) + 0.5772156649) - 2*(n-1)/n` at `n = 2`: since
`harmonic_number 1 = 0`, `c_factor 2 = -1`, while the claimed formula
gives `2 * 0.5772156649 - 1`. -/
theorem c1_counterexample :
    c_factor 2 ≠ 2 * (Real.log ((2 : ℝ) - 1) + euler_gamma_approx)
      - 2 * ((2 : ℝ) - 1) / (2 : ℝ) := by
  have h1 : c_factor 2 = -1 := by norm_num [c_factor, harmonic_number]
  have h2 : Real.log ((2 : ℝ) - 1) = 0 := by norm_num
  rw [h1, h2, euler_gamma_approx]
  norm_num

/-- C1, amended: both implementations return 0 for `n <= 1`; new.c's
`c_factor` equals `2 * (ln(n-1) + 0.5772156649) - 2*(n-1)/n` for every
`n >= 2`; part_000's `c_factor` equals that formula only for `n >= 3`,
and returns `-1` at `n = 2` (because `harmonic_number 1 = 0`). -/
theorem c1_formula (n : ℤ) :
    (n ≤ 1 → c_factor n = 0 ∧ NewC.c_factor n = 0) ∧
    (2 ≤ n → NewC.c_factor n =
      2 * (Real.log ((n : ℝ) - 1) + euler_gamma_approx)
        - 2 * ((n : ℝ) - 1) / (n : ℝ)) ∧
    (3 ≤ n → c_factor n =
      2 * (Real.log ((n : ℝ) - 1) + euler_gamma_approx)
        - 2 * ((n : ℝ) - 1) / (n : ℝ)) ∧
    (n = 2 → c_factor n = -1) := by
  refine ⟨?_, ?_, ?_, ?_⟩
  · intro h
    constructor <;> simp [c_factor, NewC.c_factor, if_pos h]
  · intro h
    rw [NewC.c_factor, if_neg (by omega)]
    push_cast
    ring
  · intro h
    rw [c_factor, if_neg (by omega), harmonic_number, if_neg (by omega)]
    push_cast
    ring
  · intro h
    subst h
    norm_num [c_factor, harmonic_number]

/-- C1, witness: `c1_formula` instantiated at `n = 1`, `n = 3` and
`n = 2` with every hypothesis discharged. -/
theorem c1_formula_witness :
    (((1 : ℤ) ≤ 1) ∧ c_factor 1 = 0 ∧ NewC.c_factor 1 = 0) ∧
    (((2 : ℤ) ≤ 3) ∧ NewC.c_factor 3 =
      2 * (Real.log ((3 : ℝ) - 1) + euler_gamma_approx)
        - 2 * ((3 : ℝ) - 1) / (3 : ℝ)) ∧
    (((3 : ℤ) ≤ 3) ∧ c_factor 3 =
      2 * (Real.log ((3 : ℝ) - 1) + euler_gamma_approx)
        - 2 * ((3 : ℝ) - 1) / (3 : ℝ)) ∧
    ((2 : ℤ) = 2 ∧ c_factor 2 = -1) := by
  refine ⟨⟨by norm_num, ((c1_formula 1).1 (by norm_num)).1,
      ((c1_formula 1).1 (by norm_num)).2⟩,
    ⟨by norm_num, ?_⟩, ⟨by norm_num, ?_⟩, ⟨rfl, ?_⟩⟩
  · exact_mod_cast (c1_formula 3).2.1 (by norm_num)
  · exact_mod_cast (c1_formula 3).2.2.1 (by norm_num)
  · exact (c1_formula 2).2.2.2 rfl

/-- C2, counterexample: a forest successfully trained on two distinct
samples has `subsample_size = 2 > 1`, and its normaliser
`c_factor 2 = -1` is negative but nonzero, so the score
`2^(-avg / c) = 2^avg` exceeds 1: scoring the all-zero vector gives
exactly 2. -/
theorem c2_counterexample :
    (train_isolation_forest data01 2 rng4 0).subsample_size = 2 ∧
    1 < anomaly_score (train_isolation_forest data01 2 rng4 0) proc_zero := by
  refine ⟨rfl, ?_⟩
  have h : train_isolation_forest data01 2 rng4 0 =
      ⟨List.replicate 10 (.node false 2 1 (some (.node true (-1) 0 none none 1))
        (some (.node true (-1) 0 none none 1)) 2), 10, 2⟩ := rfl
  rw [h]
  have hp : path_length (some (.node false 2 1 (some (.node true (-1) 0 none none 1))
      (some (.node true (-1) 0 none none 1)) 2)) proc_zero 0 = 1 := by
    norm_num [path_length, c_factor, proc_zero]
  simp only [anomaly_score, List.map_replicate, hp, List.sum_replicate]
  have hc : c_factor ((2 : ℕ) : ℤ) = -1 := by norm_num [c_factor, harmonic_number]
  rw [hc]
  norm_num

/-- C2, amended: for every forest trained on at least 3 samples
(equivalently, clamped `subsample_size >= 3`, where `c_factor` is
strictly positive), the anomaly score of every vector lies in `[0, 1]`. -/
theorem c2_score_in_unit (data : ℤ → ProcessBehavior) (n : ℕ) (rng : ℕ → ℕ)
    (k : ℕ) (p : ProcessBehavior) (hn : 3 ≤ n) :
    0 ≤ anomaly_score (train_isolation_forest data n rng k) p ∧
      anomaly_score (train_isolation_forest data n rng k) p ≤ 1 := by
  have hm : (train_isolation_forest data n rng k).subsample_size =
      if SUBSAMPLE_SIZE < n then SUBSAMPLE_SIZE else n := rfl
  have hm3 : 3 ≤ (train_isolation_forest data n rng k).subsample_size := by
    rw [hm, SUBSAMPLE_SIZE]
    split_ifs <;> omega
  have hc : 0 < c_factor ((train_isolation_forest data n rng k).subsample_size : ℤ) :=
    c_factor_pos_of_three_le _ hm3
  have hsizes : ∀ nd ∈ (train_isolation_forest data n rng k).trees,
      nd.size = (train_isolation_forest data n rng k).subsample_size := by
    intro nd hnd
    exact train_trees_sizes data rng n _ NUM_TREES k nd hnd
  have hpaths : ∀ x ∈ (train_isolation_forest data n rng k).trees.map
      (fun t => path_length (some t) p 0), 0 ≤ x := by
    intro x hx
    rcases List.mem_map.1 hx with ⟨t, ht, rfl⟩
    exact path_length_root_nonneg t p (by rw [hsizes t ht]; exact hm3)
  have hsum : 0 ≤ ((train_isolation_forest data n rng k).trees.map
      fun t => path_length (some t) p 0).sum := List.sum_nonneg hpaths
  have havg : 0 ≤ ((train_isolation_forest data n rng k).trees.map
      fun t => path_length (some t) p 0).sum /
      ((train_isolation_forest data n rng k).num_trees : ℝ) :=
    div_nonneg hsum (Nat.cast_nonneg _)
  simp only [anomaly_score]
  rw [if_neg (ne_of_gt hc)]
  constructor
  · exact le_of_lt (Real.rpow_pos_of_pos two_pos _)
  · apply Real.rpow_le_one_of_one_le_of_nonpos one_le_two
    rw [div_nonpos_iff]
    right
    exact ⟨by linarith, hc.le⟩

/-- C2, witness: `c2_score_in_unit` applied to a concrete forest
trained on 3 samples. -/
theorem c2_score_in_unit_witness :
    3 ≤ 3 ∧
      (0 ≤ anomaly_score (train_isolation_forest data01 3 rngZ 0) proc_zero ∧
        anomaly_score (train_isolation_forest data01 3 rngZ 0) proc_zero ≤ 1) :=
  ⟨by norm_num, c2_score_in_unit data01 3 rngZ 0 proc_zero (by norm_num)⟩

/-- C3: for a nonempty sample index list, the builder returns a leaf
exactly when the depth bound is reached, at most one sample remains, or
all samples agree on the randomly chosen attribute `chosen_attr rng k`;
and the returned node stores `size = |samples|`. -/
theorem c3_leaf_characterisation (data : ℤ → ProcessBehavior) (rng : ℕ → ℕ)
    (idx : List ℤ) (depth maxD k : ℕ) (hne : idx ≠ []) :
    (((build_isolation_tree data rng idx depth maxD k).1).is_leaf = true ↔
      maxD ≤ depth ∨ idx.length ≤ 1 ∨
        ∀ i ∈ idx, (data i).syscall_freq (chosen_attr rng k) =
          (data idx.headI).syscall_freq (chosen_attr rng k)) ∧
    ((build_isolation_tree data rng idx depth maxD k).1).size = idx.length := by
  refine ⟨?_, build_fuel_size data rng maxD (maxD - depth + 1) idx depth k⟩
  cases idx with
  | nil => exact absurd rfl hne
  | cons a t =>
    simp only [build_isolation_tree, build_isolation_tree_fuel]
    by_cases hg : maxD ≤ depth ∨ (a :: t).length ≤ 1
    · rw [if_pos hg]
      exact iff_of_true rfl (hg.elim Or.inl fun h => Or.inr (Or.inl h))
    · rw [if_neg hg]
      have hiff : (list_min (attr_vals data (chosen_attr rng k) (a :: t)) =
          list_max (attr_vals data (chosen_attr rng k) (a :: t))) ↔
          ∀ i ∈ a :: t, (data i).syscall_freq (chosen_attr rng k) =
            (data (a :: t).headI).syscall_freq (chosen_attr rng k) := by
        have h0 : attr_vals data (chosen_attr rng k) (a :: t) =
            (data a).syscall_freq (chosen_attr rng k) ::
              t.map fun i => (data i).syscall_freq (chosen_attr rng k) := rfl
        rw [h0, list_min_eq_list_max_iff]
        constructor
        · intro h i hi
          rcases List.mem_cons.1 hi with h1 | h1
          · subst h1
            rfl
          · exact h _ (List.mem_cons.2 (Or.inr (List.mem_map.2 ⟨i, h1, rfl⟩)))
        · intro h x hx
          rcases List.mem_cons.1 hx with h1 | h1
          · subst h1
            rfl
          · rcases List.mem_map.1 h1 with ⟨i, hi, rfl⟩
            exact h i (List.mem_cons.2 (Or.inr hi))
      by_cases hm : list_min (attr_vals data (chosen_attr rng k) (a :: t)) =
          list_max (attr_vals data (chosen_attr rng k) (a :: t))
      · rw [if_pos hm]
        exact iff_of_true rfl (Or.inr (Or.inr (hiff.1 hm)))
      · rw [if_neg hm]
        apply iff_of_false
        · simp [IsolationNode.is_leaf]
        · intro hor
          rcases hor with h | h | h
          · exact absurd (Or.inl h) hg
          · exact absurd (Or.inr h) hg
          · exact absurd (hiff.2 h) hm

/-- C3, witness: `c3_leaf_characterisation` applied to the singleton
sample list `[0]` (one sample forces a leaf of size 1). -/
theorem c3_witness :
    ([(0 : ℤ)] ≠ []) ∧
    ((build_isolation_tree data01 rngZ [(0 : ℤ)] 0 10 0).1).is_leaf = true ∧
    ((build_isolation_tree data01 rngZ [(0 : ℤ)] 0 10 0).1).size =
      [(0 : ℤ)].length := by
  have h := c3_leaf_characterisation data01 rngZ [(0 : ℤ)] 0 10 0 (by simp)
  exact ⟨by simp, h.1.mpr (Or.inr (Or.inl (by simp))), h.2⟩

/-- C4, counterexample: on trees actually produced by the builder whose
internal root has an absent left child, a sample whose comparison
selects that absent left child does not receive the current depth 0:
part_000's `path_length` falls through to the right child and returns 1
(on the depth-2 tree), and new.c's `get_path` recurses into the `NULL`
child and returns 1 (on the depth-1 tree). -/
theorem c4_counterexample :
    ((build_isolation_tree data01 rngZ [0, 1] 0 2 0).1).is_leaf = false ∧
    ((build_isolation_tree data01 rngZ [0, 1] 0 2 0).1).left = none ∧
    proc_neg.syscall_freq
        ((build_isolation_tree data01 rngZ [0, 1] 0 2 0).1).split_attribute <
      ((build_isolation_tree data01 rngZ [0, 1] 0 2 0).1).split_value ∧
    path_length (some (build_isolation_tree data01 rngZ [0, 1] 0 2 0).1)
      proc_neg 0 = 1 ∧
    ((build_isolation_tree data01 rngZ [0, 1] 0 1 0).1).is_leaf = false ∧
    ((build_isolation_tree data01 rngZ [0, 1] 0 1 0).1).left = none ∧
    proc_neg.syscall_freq
        ((build_isolation_tree data01 rngZ [0, 1] 0 1 0).1).split_attribute <
      ((build_isolation_tree data01 rngZ [0, 1] 0 1 0).1).split_value ∧
    NewC.get_path (some (build_isolation_tree data01 rngZ [0, 1] 0 1 0).1)
      proc_neg 0 = 1 := by
  have hT2 : (build_isolation_tree data01 rngZ [0, 1] 0 2 0).1 =
      .node false 0 0 none (some (.node false 0 0 none
        (some (.node true (-1) 0 none none 2)) 2)) 2 := rfl
  have hT1 : (build_isolation_tree data01 rngZ [0, 1] 0 1 0).1 =
      .node false 0 0 none (some (.node true (-1) 0 none none 2)) 2 := rfl
  rw [hT2, hT1]
  refine ⟨rfl, rfl, ?_, ?_, rfl, rfl, ?_, ?_⟩
  · norm_num [proc_neg, IsolationNode.split_attribute, IsolationNode.split_value]
  · norm_num [path_length, proc_neg, c_factor, harmonic_number]
  · norm_num [proc_neg, IsolationNode.split_attribute, IsolationNode.split_value]
  · norm_num [NewC.get_path, proc_neg, NewC.c_factor]

/-- C4, amended: an absent node yields `depth + c_factor 0`
(= `depth`, in both implementations); at an internal node, part_000's
`path_length` recurses into the selected left child only when it is
present, falls through to the right child (at `depth+1`) when the left
child is selected but absent, and returns the current depth only when
the right child needed for that fallback (or selected directly) is
absent; new.c's `get_path` always recurses into the selected child,
absent or not (an absent selected child therefore yields `depth + 1`,
not `depth`). -/
theorem c4_selected_absent_child (p : ProcessBehavior) (d : ℕ) (a v : ℤ)
    (s : ℕ) (l r : Option IsolationNode) :
    path_length none p d = (d : ℝ) + c_factor 0 ∧
    NewC.get_path none p d = (d : ℝ) + NewC.c_factor 0 ∧
    (p.syscall_freq a < v → l.isSome →
      path_length (some (.node false a v l r s)) p d = path_length l p (d + 1)) ∧
    (p.syscall_freq a < v → l = none → r.isSome →
      path_length (some (.node false a v l r s)) p d = path_length r p (d + 1)) ∧
    (¬ p.syscall_freq a < v → r.isSome →
      path_length (some (.node false a v l r s)) p d = path_length r p (d + 1)) ∧
    (p.syscall_freq a < v → l = none → r = none →
      path_length (some (.node false a v l r s)) p d = d) ∧
    (¬ p.syscall_freq a < v → r = none →
      path_length (some (.node false a v l r s)) p d = d) ∧
    (p.syscall_freq a < v →
      NewC.get_path (some (.node false a v l r s)) p d = NewC.get_path l p (d + 1)) ∧
    (¬ p.syscall_freq a < v →
      NewC.get_path (some (.node false a v l r s)) p d = NewC.get_path r p (d + 1)) := by
  refine ⟨?_, ?_, ?_, ?_, ?_, ?_, ?_, ?_, ?_⟩
  · norm_num [path_length, c_factor]
  · simp [NewC.get_path]
  · intro h1 h2
    simp [path_length, h1, h2]
  · intro h1 h2 h3
    subst h2
    simp [path_length, h1, h3]
  · intro h1 h2
    simp [path_length, h1, h2]
  · intro h1 h2 h3
    subst h2
    subst h3
    simp [path_length, h1]
  · intro h1 h2
    subst h2
    simp [path_length, h1]
  · intro h1
    simp [NewC.get_path, h1]
  · intro h1
    simp [NewC.get_path, h1]

/-- C4, witness: `c4_selected_absent_child` applied to a concrete
internal node with an absent left child and a sample that selects it
(hypotheses discharged for the fall-through conjunct of `path_length`
and the recurse-into-`NULL` conjunct of `get_path`). -/
theorem c4_witness :
    proc_neg.syscall_freq 0 < 0 ∧
    path_length (some (.node false 0 0 none
        (some (.node true (-1) 0 none none 2)) 2)) proc_neg 0 =
      path_length (some (.node true (-1) 0 none none 2)) proc_neg (0 + 1) ∧
    NewC.get_path (some (.node false 0 0 none
        (some (.node true (-1) 0 none none 2)) 2)) proc_neg 0 =
      NewC.get_path none proc_neg (0 + 1) :=
  ⟨by norm_num [proc_neg],
   (c4_selected_absent_child proc_neg 0 0 0 2 none
      (some (.node true (-1) 0 none none 2))).2.2.2.1
      (by norm_num [proc_neg]) rfl rfl,
   (c4_selected_absent_child proc_neg 0 0 0 2 none
      (some (.node true (-1) 0 none none 2))).2.2.2.2.2.2.2.1
      (by norm_num [proc_neg])⟩

/-- C5, counterexample: the builder can return an internal node whose
left child is absent (the random threshold equals the attribute
minimum, so no sample is strictly below it). -/
theorem c5_counterexample :
    ((build_isolation_tree data01 rngZ [0, 1] 0 10 0).1).is_leaf = false ∧
    ((build_isolation_tree data01 rngZ [0, 1] 0 10 0).1).left = none :=
  ⟨rfl, rfl⟩

/-- C5, amended: in every tree produced by the builder, every internal
node has a present right child; only the left child can be absent. -/
theorem c5_right_always_present (data : ℤ → ProcessBehavior) (rng : ℕ → ℕ)
    (idx : List ℤ) (depth maxD k : ℕ) :
    allRightB (build_isolation_tree data rng idx depth maxD k).1 = true :=
  allRightB_build_fuel data rng maxD (maxD - depth + 1) idx depth k

/-- C6, counterexample: training on an empty data set does not fail and
is not rejected: it returns a fully populated forest of `NUM_TREES`
single-leaf trees of size 0 with `subsample_size` clamped to 0. -/
theorem c6_counterexample :
    (train_isolation_forest data01 0 rngZ 0).trees =
      List.replicate NUM_TREES (.node true (-1) 0 none none 0) ∧
    (train_isolation_forest data01 0 rngZ 0).num_trees = NUM_TREES ∧
    (train_isolation_forest data01 0 rngZ 0).subsample_size = 0 :=
  ⟨rfl, rfl, rfl⟩

/-- C6, amended: `train_isolation_forest` performs no input validation;
for every data array, RNG stream and cursor, training with `n = 0`
succeeds and yields exactly `NUM_TREES` single-leaf trees of size 0. -/
theorem c6_no_validation (data : ℤ → ProcessBehavior) (rng : ℕ → ℕ) (k : ℕ) :
    train_isolation_forest data 0 rng k =
      { trees := List.replicate NUM_TREES (.node true (-1) 0 none none 0)
        num_trees := NUM_TREES
        subsample_size := 0 } := by
  simp only [train_isolation_forest]
  rw [if_neg (by norm_num [SUBSAMPLE_SIZE])]
  rw [train_trees_zero]

/-- C7: whenever the normalisation constant `c_factor subsample_size`
is zero, `anomaly_score` returns the fixed fallback `0.5` (the division
branch is never taken). -/
theorem c7_zero_guard (forest : IsolationForest) (sample : ProcessBehavior)
    (hc : c_factor (forest.subsample_size : ℤ) = 0) :
    anomaly_score forest sample = 0.5 := by
  simp only [anomaly_score]
  rw [if_pos hc]

/-- C7, witness: `c7_zero_guard` applied to a forest with
`subsample_size = 1`, where `c_factor 1 = 0`. -/
theorem c7_zero_guard_witness :
    c_factor (((⟨[], 0, 1⟩ : IsolationForest)).subsample_size : ℤ) = 0 ∧
    anomaly_score ⟨[], 0, 1⟩ proc_zero = 0.5 :=
  ⟨by norm_num [c_factor], c7_zero_guard ⟨[], 0, 1⟩ proc_zero (by norm_num [c_factor])⟩

/-- C8: scoring is a pure function of the forest and the vector: a
scoring call leaves the forest unchanged, and a second call on the
forest left behind by the first returns the identical score. -/
theorem c8_scoring_pure (forest : IsolationForest) (sample : ProcessBehavior) :
    (score_call forest sample).2 = forest ∧
    (score_call ((score_call forest sample).2) sample).1 =
      (score_call forest sample).1 :=
  ⟨rfl, rfl⟩

/-- C9: an internal node returned by the builder always has a present
right child, and its split value lies between the minimum and the
maximum of the chosen attribute over the node's samples (so the sample
attaining the maximum always populates the right partition). -/
theorem c9_internal_has_right (data : ℤ → ProcessBehavior) (rng : ℕ → ℕ)
    (idx : List ℤ) (depth maxD k : ℕ) (a v : ℤ) (l r : Option IsolationNode)
    (s : ℕ)
    (heq : (build_isolation_tree data rng idx depth maxD k).1 =
      .node false a v l r s) :
    r ≠ none ∧ list_min (attr_vals data a idx) ≤ v ∧
      v ≤ list_max (attr_vals data a idx) := by
  cases idx with
  | nil =>
    simp only [build_isolation_tree, build_isolation_tree_fuel] at heq
    rw [if_pos (Or.inr (by simp))] at heq
    simp [IsolationNode.node.injEq] at heq
  | cons a0 t =>
    simp only [build_isolation_tree, build_isolation_tree_fuel] at heq
    by_cases hg : maxD ≤ depth ∨ (a0 :: t).length ≤ 1
    · rw [if_pos hg] at heq
      simp [IsolationNode.node.injEq] at heq
    · rw [if_neg hg] at heq
      by_cases hm : list_min (attr_vals data (chosen_attr rng k) (a0 :: t)) =
          list_max (attr_vals data (chosen_attr rng k) (a0 :: t))
      · rw [if_pos hm] at heq
        simp [IsolationNode.node.injEq] at heq
      · rw [if_neg hm] at heq
        have hb := chosen_split_bounds data rng (chosen_attr rng k) a0 t (k + 1) hm
        have hr := right_of_pos data (chosen_attr rng k) a0 t
          (chosen_split data rng (chosen_attr rng k) (a0 :: t) (k + 1)) hb.2
        rw [if_pos hr] at heq
        simp only [IsolationNode.node.injEq] at heq
        obtain ⟨-, ha, hv, hl, hrr, hs⟩ := heq
        refine ⟨?_, ?_, ?_⟩
        · rw [← hrr]
          simp
        · rw [← ha, ← hv]
          exact hb.1
        · rw [← ha, ← hv]
          exact hb.2

/-- C9, witness: `c9_internal_has_right` applied to a concretely built
internal node (its equation discharged by `rfl`). -/
theorem c9_witness :
    ((some (.node true (-1) 0 none none 1) : Option IsolationNode) ≠ none) ∧
    list_min (attr_vals data01 2 [0, 1]) ≤ 1 ∧
    1 ≤ list_max (attr_vals data01 2 [0, 1]) :=
  c9_internal_has_right data01 rng4 [0, 1] 0 10 2 2 1
    (some (.node true (-1) 0 none none 1)) (some (.node true (-1) 0 none none 1))
    2 rfl

/-- C10: the builder's recursion is well-founded on the measure
`max_depth - current_depth`: any fuel at least that measure computes
the same tree as `build_isolation_tree`, and every call with
`current_depth >= max_depth` returns a leaf immediately. -/
theorem c10_terminates (data : ℤ → ProcessBehavior) (rng : ℕ → ℕ)
    (maxD fuel : ℕ) (idx : List ℤ) (depth k : ℕ) :
    (maxD ≤ depth + fuel →
      build_isolation_tree_fuel data rng maxD fuel idx depth k =
        build_isolation_tree data rng idx depth maxD k) ∧
    (maxD ≤ depth →
      build_isolation_tree data rng idx depth maxD k =
        (.node true (-1) 0 none none idx.length, k)) := by
  constructor
  · intro h
    exact build_fuel_irrel data rng maxD fuel (maxD - depth + 1) idx depth k h
      (by omega)
  · intro h
    simp only [build_isolation_tree, build_isolation_tree_fuel,
      if_pos (Or.inl h)]

/-- C10, witness: `c10_terminates` applied with concrete fuel 20 and
with a concrete call at depth 12 past the bound 10. -/
theorem c10_terminates_witness :
    (10 ≤ 0 + 20 ∧
      build_isolation_tree_fuel data01 rngZ 10 20 [0, 1] 0 0 =
        build_isolation_tree data01 rngZ [0, 1] 0 10 0) ∧
    (10 ≤ 12 ∧
      build_isolation_tree data01 rngZ [0, 1] 12 10 7 =
        (.node true (-1) 0 none none 2, 7)) :=
  ⟨⟨by norm_num, (c10_terminates data01 rngZ 10 20 [0, 1] 0 0).1 (by norm_num)⟩,
   ⟨by norm_num, (c10_terminates data01 rngZ 10 20 [0, 1] 12 7).2 (by norm_num)⟩⟩
